import Mathlib

/-!
Verification of the fast-file search core (`src/search.rs`, `src/config.rs`)
against its natural-language specification.

Strings are embedded as `List Char` (Rust byte offsets coincide with
character offsets on the ASCII inputs the spec discusses; `to_lowercase`
is embedded as the character-wise lowering, its 1:1 case).  Filesystem
reads are embedded as data carried by an `Entry` record: the metadata
read is an `Option Meta` (mirroring `if let Ok(metadata)`), the content
read an `Option (List (List Char))` (`none` mirroring a failing
`File::open` or a failing `BufRead::lines` item; the `Box<dyn Error>`
payload carries no information the core inspects).  The shared
cancellation flag, set at most once by the Ctrl-C handler and never
reset, is embedded as an optional poll index `cancelAt`: the k-th load
of the flag returns `true` exactly when `k` is below the cancellation
point.
-/

namespace FastFile

/-! ## String primitives -/

/-- Character-wise lowercasing, modelling `str::to_lowercase`. -/
def lowerStr (s : List Char) : List Char := s.map Char.toLower

/-- Substring containment test, modelling `str::contains` on the
given needle `p` and haystack: some suffix of the haystack starts
with `p`. -/
def containsSub (p : List Char) : List Char → Bool
  | [] => p.isEmpty
  | c :: cs => p.isPrefixOf (c :: cs) || containsSub p cs

/-- Position of the leftmost occurrence of `p`, modelling `str::find`. -/
def firstOcc (p : List Char) : List Char → Option Nat
  | [] => if p.isEmpty then some 0 else none
  | c :: cs => if p.isPrefixOf (c :: cs) then some 0 else (firstOcc p cs).map (· + 1)

/-- Subsequence test: the characters of the first list appear in the
second list, in order, not necessarily contiguously. -/
def isSubseq : List Char → List Char → Bool
  | [], _ => true
  | _ :: _, [] => false
  | a :: as, b :: bs => if a == b then isSubseq as bs else isSubseq (a :: as) bs

/-! ## Configuration (`src/config.rs`)

Only the fields the search core consumes are embedded. -/

structure OutputOptions where
  show_details : Bool
deriving Repr, DecidableEq

structure Config where
  ignore_directories : List (List Char)
  ignore_file_patterns : List (List Char)
  max_files_per_search : Nat
  max_file_size_mb : Nat
  include_hidden : Bool
  follow_symlinks : Bool
  content_search_extensions : List (List Char)
  output_options : OutputOptions
deriving Repr, DecidableEq

/-- Embeds `Config::should_ignore_directory` (config.rs:143-145). -/
def Config.should_ignore_directory (cfg : Config) (dir_name : List Char) : Bool :=
  cfg.ignore_directories.any fun pattern => containsSub pattern dir_name

/-- Embeds `Config::should_ignore_file` (config.rs:147-156): a pattern
starting with `*.` is a suffix test on the pattern minus its first two
characters; any other pattern is a substring test. -/
def Config.should_ignore_file (cfg : Config) (file_name : List Char) : Bool :=
  cfg.ignore_file_patterns.any fun pattern =>
    if ['*', '.'].isPrefixOf pattern then
      (pattern.drop 2).isSuffixOf file_name
    else
      containsSub pattern file_name

/-- Rust `Path::extension` restricted to a final path component: the
part after the last `.`, provided that dot is not the component's
first character; `none` when there is no such dot. -/
def rustExtension (name : List Char) : Option (List Char) :=
  if name.contains '.' then
    let ext := (name.reverse.takeWhile (fun c => c != '.')).reverse
    if name.length - ext.length - 1 == 0 then none else some ext
  else none

/-- Embeds `Config::is_content_searchable` (config.rs:158-170), taking
the entry's final path component (`none` when the path has no file
name, in which case both branches of the source reject). -/
def Config.is_content_searchable (cfg : Config) (file_name : Option (List Char)) : Bool :=
  match file_name with
  | none => false
  | some name =>
    match rustExtension name with
    | some ext => cfg.content_search_extensions.contains ('.' :: ext)
    | none =>
        name == "README".data || name == "Makefile".data ||
        name == "Dockerfile".data || name == "LICENSE".data

/-! ## Name matcher (`get_best_match_score`, search.rs:504-541)

The third-party matcher (`SkimMatcherV2`) is passed to the function as
an argument in the source, so the embedding takes the matcher as a
function argument as well. -/

inductive MatchMode
  | Fuzzy
  | Exact
deriving Repr, DecidableEq

/-- Embeds `Iterator::max` over the `i64` scores surviving `flatten`. -/
def listMaxInt : List Int → Option Int
  | [] => none
  | x :: xs =>
    match listMaxInt xs with
    | none => some x
    | some m => some (max x m)

/-- Embeds `[a, b, c].into_iter().flatten().max()` (search.rs:526-529). -/
def flattenMax (l : List (Option Int)) : Option Int :=
  listMaxInt (l.filterMap id)

/-- Modelled from the spec: the subsequence fuzzy matcher
(`fuzzy_matcher::skim::SkimMatcherV2::fuzzy_match`) is a third-party
crate whose sources are not in the repository.  Per the spec
(section 4.2 and the glossary), it produces a score exactly when the
pattern's characters appear in the text in order though not
necessarily contiguously (case-insensitively), unmatched characters
cost proportionally, the score of a sparse match stays well below the
fixed substring score of 100, and a successful match of a nonempty
pattern scores positively. -/
def skimFuzzyMatch (text pattern : List Char) : Option Int :=
  if isSubseq (lowerStr pattern) (lowerStr text) then
    some (if pattern.isEmpty then 0
          else max 1 (min 100 ((100 * (pattern.length : Int)) / text.length)))
  else none

/-- Embeds `get_best_match_score` (search.rs:504-541). -/
def get_best_match_score (filename pattern : List Char)
    (matcher : List Char → List Char → Option Int) (match_mode : MatchMode) : Option Int :=
  match match_mode with
  | .Fuzzy =>
    let fuzzy_score := matcher filename pattern
    let exact_score : Option Int :=
      if containsSub (lowerStr pattern) (lowerStr filename) then some 100 else none
    let pre_score : Option Int :=
      if (lowerStr pattern).isPrefixOf (lowerStr filename) then some 150 else none
    flattenMax [fuzzy_score, exact_score, pre_score]
  | .Exact =>
    if containsSub (lowerStr pattern) (lowerStr filename) then some 100 else none

/-- Maximum of two optional scores, keeping a present one. -/
def omax : Option Int → Option Int → Option Int
  | none, b => b
  | some a, none => some a
  | some a, some b => some (max a b)

/-- The name-matcher contract as the spec words it (section 4.2): in
Exact mode a fixed 100 on case-insensitive containment, else no match;
in Fuzzy mode the maximum of the present values among the fuzzy
subsequence score, 100 for containment and 150 for a case-insensitive
prefix match, no match when none are present. -/
def nameScoreSpec (filename pattern : List Char)
    (matcher : List Char → List Char → Option Int) (match_mode : MatchMode) : Option Int :=
  match match_mode with
  | .Exact =>
    if containsSub (lowerStr pattern) (lowerStr filename) then some 100 else none
  | .Fuzzy =>
    omax (matcher filename pattern)
      (omax (if containsSub (lowerStr pattern) (lowerStr filename) then some 100 else none)
            (if (lowerStr pattern).isPrefixOf (lowerStr filename) then some 150 else none))

/-! ## Content scanner (`search_file_content`, search.rs:19-61) -/

/-- Modelled from the spec (section 3): the `ContentMatch` record — its
declaration lives in the crate root, which is not among the sources,
but every field is fixed by the constructor call at search.rs:49-54. -/
structure ContentMatch where
  line_number : Nat
  line_content : List Char
  match_start : Nat
  match_end : Nat
deriving Repr, DecidableEq

/-- Embeds the per-line hit test (search.rs:34-42): Exact requires
case-insensitive containment, Fuzzy accepts containment or a
successful skim match of the raw line. -/
def lineFound (line pattern : List Char) (match_mode : MatchMode) : Bool :=
  match match_mode with
  | .Exact => containsSub (lowerStr pattern) (lowerStr line)
  | .Fuzzy =>
    containsSub (lowerStr pattern) (lowerStr line) || (skimFuzzyMatch line pattern).isSome

/-- Embeds the occurrence loop (search.rs:46-56): repeatedly `find` the
pattern from `start`, record the position, resume one character past
the found start.  The fuel argument only serves termination; the
characterization theorems supply `line.length + 1`, which is enough
fuel for any nonempty pattern. -/
def occLoop (pattern_lower line_lower : List Char) : Nat → Nat → List Nat
  | _start, 0 => []
  | start, fuel + 1 =>
    match firstOcc pattern_lower (line_lower.drop start) with
    | none => []
    | some pos => (start + pos) :: occLoop pattern_lower line_lower (start + pos + 1) fuel

/-- All occurrence starts recorded by the loop of search.rs:46-56. -/
def findAllOccurrences (pattern_lower line_lower : List Char) : List Nat :=
  occLoop pattern_lower line_lower 0 (line_lower.length + 1)

/-- Embeds `search_file_content` (search.rs:19-61).  The file argument
is the outcome of opening and reading the file: `none` when
`File::open` or any `lines()` item fails, otherwise the list of
decoded lines. -/
def search_file_content (file : Option (List (List Char)))
    (pattern : List Char) (match_mode : MatchMode) : Option (List ContentMatch) :=
  match file with
  | none => none
  | some lines =>
    some ((lines.enum).flatMap fun le =>
      if lineFound le.2 pattern match_mode then
        (findAllOccurrences (lowerStr pattern) (lowerStr le.2)).map fun actual_pos =>
          { line_number := le.1 + 1
            line_content := le.2
            match_start := actual_pos
            match_end := actual_pos + pattern.length }
      else [])

/-! ## Data model of the executors -/

/-- Modelled from the spec (section 3): the derived `SearchType`; its
declaration lives in the crate root, which is not among the sources,
but the three variants are fixed by the matches at search.rs:82-87 and
search.rs:272-277. -/
inductive SearchType
  | FileName
  | Content
  | Hybrid
deriving Repr, DecidableEq

/-- Outcome of a successful metadata read for an entry. -/
structure Meta where
  is_file : Bool
  len : Nat
  modified : Option Nat
deriving Repr, DecidableEq

/-- One traversal entry, carrying the outcomes of the filesystem reads
the core performs on it: `name` is `file_name().to_str()` (absent for
paths without a final component), `meta` the `metadata()` result,
`content` the readable lines of the file. -/
structure Entry where
  path : List Char
  name : Option (List Char)
  is_dir : Bool
  meta : Option Meta
  content : Option (List (List Char))
deriving Repr, DecidableEq

/-- Modelled from the spec (section 3): the `SearchResult` record — its
declaration lives in the crate root, which is not among the sources,
but every field is fixed by the constructor calls at search.rs:208-216
and search.rs:474-482. -/
structure SearchResult where
  path : List Char
  score : Int
  is_dir : Bool
  size : Option Nat
  modified : Option Nat
  content_matches : List ContentMatch
  search_type : SearchType
deriving Repr, DecidableEq

/-- The parameters both entry points receive (search.rs:63-74 and
search.rs:247-259); the thread count only sizes the worker pool and is
not embedded. -/
structure Params where
  filename_pattern : Option (List Char)
  content_pattern : Option (List Char)
  include_hidden : Bool
  dirs_only : Bool
  files_only : Bool
  limit : Nat
  show_details : Bool
  match_mode : MatchMode
  config : Config

/-- Value of the k-th load of the shared cancellation flag when the
Ctrl-C handler clears it just before load number `c` (never, when
`cancelAt = none`). -/
def pollRun : Option Nat → Nat → Bool
  | none, _ => true
  | some c, k => decide (k < c)

/-- Embeds the search-type derivation of the sequential executor
(search.rs:82-87): `none` encodes the early `return results`. -/
def seqSearchType : Option (List Char) → Option (List Char) → Option SearchType
  | some _, some _ => some .Hybrid
  | some _, none => some .FileName
  | none, some _ => some .Content
  | none, none => none

/-- Embeds the search-type derivation of the parallel executor
(search.rs:272-277), whose `(None, None)` arm falls back to
`FileName` instead of returning. -/
def parSearchType : Option (List Char) → Option (List Char) → SearchType
  | some _, some _ => .Hybrid
  | some _, none => .FileName
  | none, some _ => .Content
  | none, none => .FileName

/-! ## Filter predicates (search.rs:104-136 and search.rs:293-325) -/

/-- Hidden-entry rejection (search.rs:108-115 / 294-301). -/
def hiddenReject (include_hidden : Bool) (cfg : Config) (e : Entry) : Bool :=
  let effective_hidden := include_hidden || cfg.include_hidden
  if !effective_hidden then
    match e.name with
    | some name => ['.'].isPrefixOf name && decide (1 < name.length)
    | none => false
  else false

/-- Ignore-list rejection (search.rs:118-127 / 302-311). -/
def ignoreReject (cfg : Config) (e : Entry) : Bool :=
  match e.name with
  | some name => cfg.should_ignore_directory name || cfg.should_ignore_file name
  | none => false

/-- Oversize rejection (search.rs:129-133 / 319-323): only applies when
the metadata read succeeds and the entry is a regular file. -/
def sizeReject (cfg : Config) (e : Entry) : Bool :=
  match e.meta with
  | some m => m.is_file && decide (cfg.max_file_size_mb * 1024 * 1024 < m.len)
  | none => false

/-- Embeds the sequential executor's `filter_entry` closure
(search.rs:104-136): the cancellation flag is loaded first, then the
hidden, ignore and size rules apply in order. -/
def seqFilterEntry (running : Bool) (include_hidden : Bool) (cfg : Config) (e : Entry) : Bool :=
  if !running then false
  else if hiddenReject include_hidden cfg e then false
  else if ignoreReject cfg e then false
  else if sizeReject cfg e then false
  else true

/-- Embeds the parallel executor's `filter_entry` closure
(search.rs:293-315): the hidden and ignore rules of the sequential
filter, with no load of the cancellation flag and no size rule. -/
def parFilterEntry (include_hidden : Bool) (cfg : Config) (e : Entry) : Bool :=
  if hiddenReject include_hidden cfg e then false
  else if ignoreReject cfg e then false
  else true

/-! ## Aggregation (search.rs:190-199 and its verbatim copy 438-447) -/

/-- Embeds the `(is_match, final_score)` computation shared verbatim by
both executors. -/
def aggregate (filename_score : Option Int) (content_matches : List ContentMatch)
    (search_type : SearchType) : Bool × Int :=
  match search_type with
  | .FileName => (filename_score.isSome, filename_score.getD 0)
  | .Content =>
    (!content_matches.isEmpty, if !content_matches.isEmpty then 100 else 0)
  | .Hybrid =>
    let has_filename := filename_score.isSome
    let has_content := !content_matches.isEmpty
    (has_filename || has_content, filename_score.getD 0 + if has_content then 50 else 0)

/-- The aggregation contract as the spec's table words it
(section 4.4), one row per `SearchType` and shape of the outcome. -/
def aggregateSpec (filename_score : Option Int) (content_matches : List ContentMatch)
    (search_type : SearchType) : Bool × Int :=
  match search_type, filename_score, content_matches with
  | .FileName, some s, _ => (true, s)
  | .FileName, none, _ => (false, 0)
  | .Content, _, [] => (false, 0)
  | .Content, _, _ :: _ => (true, 100)
  | .Hybrid, some s, [] => (true, s)
  | .Hybrid, some s, _ :: _ => (true, s + 50)
  | .Hybrid, none, [] => (false, 0)
  | .Hybrid, none, _ :: _ => (true, 50)

/-! ## Per-entry processing -/

/-- Filename score of an entry's name (search.rs:174-176 / 422-424). -/
def filenameScoreOf (P : Params) (file_name : List Char) : Option Int :=
  match P.filename_pattern with
  | some pattern => get_best_match_score file_name pattern skimFuzzyMatch P.match_mode
  | none => none

/-- Content matches of an entry (search.rs:179-187 / 427-435): only
files with a content-searchable name are scanned, a failed scan
contributes nothing, and a nonempty result replaces the empty
default. -/
def contentMatchesOf (P : Params) (e : Entry) : List ContentMatch :=
  match P.content_pattern with
  | none => []
  | some pattern =>
    if !e.is_dir && P.config.is_content_searchable e.name then
      match search_file_content e.content pattern P.match_mode with
      | some ms => ms
      | none => []
    else []

/-- Embeds `util::get_file_metadata` (util.rs:168-180). -/
def util_get_file_metadata (e : Entry) : Option Nat × Option Nat :=
  match e.meta with
  | some m => (if m.is_file then some m.len else none, m.modified)
  | none => (none, none)

/-- Embeds the body of the sequential loop for one yielded entry
(search.rs:144-218), minus the progress prints and counters: the
dirs-only/files-only skips, the name/content evaluation, the
aggregation and the conditional push. -/
def processEntry (P : Params) (st : SearchType) (e : Entry) : List SearchResult :=
  if P.dirs_only && !e.is_dir then []
  else if P.files_only && e.is_dir then []
  else
    match e.name with
    | none => []
    | some file_name =>
      let filename_score := filenameScoreOf P file_name
      let content_matches := contentMatchesOf P e
      let im := aggregate filename_score content_matches st
      if im.1 then
        let sm := if P.show_details then util_get_file_metadata e else (none, none)
        [{ path := e.path, score := im.2, is_dir := e.is_dir, size := sm.1,
           modified := sm.2, content_matches := content_matches, search_type := st }]
      else []

/-- Embeds one parallel task (search.rs:396-483), minus the progress
counters: the dirs-only/files-only skips, the `?`-propagated name,
the name/content evaluation, the aggregation and the conditional
construction of the result. -/
def processEntryPar (P : Params) (st : SearchType) (e : Entry) : Option SearchResult :=
  if P.dirs_only && !e.is_dir then none
  else if P.files_only && e.is_dir then none
  else
    match e.name with
    | none => none
    | some file_name =>
      let filename_score := filenameScoreOf P file_name
      let content_matches := contentMatchesOf P e
      let im := aggregate filename_score content_matches st
      if !im.1 then none
      else
        let sm :=
          if P.show_details || P.config.output_options.show_details then
            match e.meta with
            | some m => (if m.is_file then some m.len else none, m.modified)
            | none => (none, none)
          else (none, none)
        some { path := e.path, score := im.2, is_dir := e.is_dir, size := sm.1,
               modified := sm.2, content_matches := content_matches, search_type := st }

/-! ## Sorting (`sort_by(|a, b| b.score.cmp(&a.score))`)

Rust's `sort_by` / `par_sort_by` is a stable sort; it is embedded as a
stable insertion sort by descending score, which is executable by the
kernel (the library merge sort is not). -/

/-- Stable descending insertion of one result. -/
def insertDesc (r : SearchResult) : List SearchResult → List SearchResult
  | [] => [r]
  | x :: xs => if r.score < x.score then x :: insertDesc r xs else r :: x :: xs

/-- Stable sort by descending score, embedding the
`sort_by(|a, b| b.score.cmp(&a.score))` calls (search.rs:239, 492,
496). -/
def sortDesc : List SearchResult → List SearchResult
  | [] => []
  | x :: xs => insertDesc x (sortDesc xs)

/-! ## Sequential executor (`search_files`, search.rs:63-244) -/

/-- Embeds the fused walker/loop of the sequential executor: the lazy
walker applies `filter_entry` (one flag load) to each candidate it
yields, then the loop body loads the flag again and either breaks or
processes the entry.  The `Nat` component is the running count of flag
loads; the walker's subtree pruning is flattened into the per-entry
filter (no claim depends on which pruned descendants appear in the
stream, since the filter rejects them all). -/
def seqLoop (P : Params) (st : SearchType) (cancelAt : Option Nat) :
    List Entry → Nat → List SearchResult → List SearchResult × Nat
  | [], k, acc => (acc, k)
  | e :: rest, k, acc =>
    if seqFilterEntry (pollRun cancelAt k) P.include_hidden P.config e then
      if pollRun cancelAt (k + 1) then
        seqLoop P st cancelAt rest (k + 2) (acc ++ processEntry P st e)
      else (acc, k + 2)
    else seqLoop P st cancelAt rest (k + 1) acc

/-- Embeds `search_files` (search.rs:63-244): derive the search type
(returning nothing when no pattern is supplied), run the traversal
loop, and sort and truncate only when the final flag load still reads
`true` (search.rs:238-241). -/
def search_files (P : Params) (cancelAt : Option Nat) (entries : List Entry) :
    List SearchResult :=
  match seqSearchType P.filename_pattern P.content_pattern with
  | none => []
  | some st =>
    let rk := seqLoop P st cancelAt entries 0 []
    if pollRun cancelAt rk.2 then (sortDesc rk.1).take P.limit else rk.1

/-! ## Parallel executor (`search_files_parallel`, search.rs:247-501) -/

/-- Embeds phase 1 of the parallel executor (search.rs:290-328): the
filtered enumeration, the oversize filter and the candidate cap.  The
`_running` argument records that the shared flag is in scope in the
source closures but never loaded there: the enumeration is the same
function of the entries whatever the flag does. -/
def parPhase1 (P : Params) (_running : Entry → Bool) (entries : List Entry) : List Entry :=
  (((entries.filter (parFilterEntry P.include_hidden P.config)).filter
      (fun e => !sizeReject P.config e)).take P.config.max_files_per_search)

/-- Embeds `search_files_parallel` (search.rs:247-501).  `running_task`
gives the flag value each task observes at its start (tasks run
concurrently, so each may observe a different value); `running_final`
is the load at search.rs:491.  Both final branches sort; truncation is
`limit` in one and `min limit len` in the other. -/
def search_files_parallel (P : Params) (running_task : Entry → Bool)
    (running_final : Bool) (entries : List Entry) : List SearchResult :=
  let st := parSearchType P.filename_pattern P.content_pattern
  let all_paths := parPhase1 P running_task entries
  let results := all_paths.filterMap fun e =>
    if !running_task e then none else processEntryPar P st e
  let sorted := sortDesc results
  if running_final then sorted.take P.limit
  else sorted.take (min P.limit sorted.length)

/-! ## Concrete instances for the closed evaluations -/

/-- A small concrete configuration used by the concrete evaluations. -/
def cfgLog : Config where
  ignore_directories := []
  ignore_file_patterns := ["*.log".data]
  max_files_per_search := 1000
  max_file_size_mb := 10
  include_hidden := false
  follow_symlinks := false
  content_search_extensions := [".md".data]
  output_options := { show_details := false }

/-- Parameters of a filename-only fuzzy search for `a` with limit 1. -/
def paramsA : Params where
  filename_pattern := some "a".data
  content_pattern := none
  include_hidden := false
  dirs_only := false
  files_only := false
  limit := 1
  show_details := false
  match_mode := .Fuzzy
  config := cfgLog

/-- Parameters of a content-only fuzzy search for `main`. -/
def paramsMain : Params where
  filename_pattern := none
  content_pattern := some "main".data
  include_hidden := false
  dirs_only := false
  files_only := false
  limit := 10
  show_details := false
  match_mode := .Fuzzy
  config := cfgLog

/-- A small matching file entry. -/
def entryA1 : Entry where
  path := "/r/a1".data
  name := some "a1".data
  is_dir := false
  meta := some { is_file := true, len := 3, modified := none }
  content := some []

/-- A second small matching file entry. -/
def entryA2 : Entry where
  path := "/r/a2".data
  name := some "a2".data
  is_dir := false
  meta := some { is_file := true, len := 3, modified := none }
  content := some []

/-- A content-searchable file whose single line matches `main` only as
a sparse subsequence. -/
def entryNotes : Entry where
  path := "/r/notes.md".data
  name := some "notes.md".data
  is_dir := false
  meta := some { is_file := true, len := 5, modified := none }
  content := some ["mxain".data]

/-- Replaces a failed content read by an empty readable file; used to
state that a scan failure is observationally an empty file. -/
def patchContent (e : Entry) : Entry :=
  match e.content with
  | none => { e with content := some [] }
  | some _ => e

/-- A file entry whose content read fails. -/
def entryErrA : Entry where
  path := "/r/a3".data
  name := some "a3".data
  is_dir := false
  meta := some { is_file := true, len := 3, modified := none }
  content := none

/-! # Theorems -/

/-! ## C10 — ignored-file suffix test -/

/-- C10: for every ignored-file pattern of the form `*.ext`, a filename
is excluded whenever it ends with the characters `ext`, even without a
preceding dot: the suffix test drops the dot and does not require an
extension boundary. -/
theorem should_ignore_file_suffix_no_boundary (cfg : Config) (ext file_name : List Char)
    (hpat : ('*' :: '.' :: ext) ∈ cfg.ignore_file_patterns)
    (hsuf : ext.isSuffixOf file_name = true) :
    cfg.should_ignore_file file_name = true := by
  unfold Config.should_ignore_file
  rw [List.any_eq_true]
  refine ⟨'*' :: '.' :: ext, hpat, ?_⟩
  simp [List.isPrefixOf, hsuf]

/-- Witness for C10: the pattern `*.log` excludes the filename
`catalog`, which has no `.log` extension. -/
theorem should_ignore_file_suffix_no_boundary_witness :
    cfgLog.should_ignore_file "catalog".data = true :=
  should_ignore_file_suffix_no_boundary cfgLog "log".data "catalog".data
    (by decide) (by decide)

/-! ## Reflection of the boolean string tests into Mathlib's relations -/

theorem isSubseq_iff_sublist : ∀ (p l : List Char), isSubseq p l = true ↔ p.Sublist l := by
  intro p l
  induction l generalizing p with
  | nil =>
    cases p with
    | nil => simp [isSubseq]
    | cons a as => simp [isSubseq]
  | cons b bs ih =>
    cases p with
    | nil => simp [isSubseq, List.nil_sublist]
    | cons a as =>
      by_cases hab : a = b
      · subst hab
        simp only [isSubseq, beq_self_eq_true, if_true]
        rw [ih, List.cons_sublist_cons]
      · have hb : (a == b) = false := by
          simpa using hab
        simp only [isSubseq, hb, Bool.false_eq_true, if_false]
        rw [ih, List.sublist_cons_iff]
        constructor
        · exact fun h => Or.inl h
        · rintro (h | ⟨r, hr, -⟩)
          · exact h
          · injection hr with h1 h2
            exact absurd h1 hab

theorem containsSub_correct : ∀ (p l : List Char), containsSub p l = true ↔ p <:+: l := by
  intro p l
  induction l with
  | nil =>
    simp only [containsSub, List.isEmpty_iff, List.infix_nil]
  | cons c cs ih =>
    simp only [containsSub, Bool.or_eq_true, List.isPrefixOf_iff_prefix, ih,
      List.infix_cons_iff]

/-! ## C5 — name-matcher contract -/

theorem flattenMax_three (a b c : Option Int) :
    flattenMax [a, b, c] = omax a (omax b c) := by
  cases a <;> cases b <;> cases c <;>
    simp [flattenMax, listMaxInt, omax, List.filterMap]

/-- C5: for every filename, pattern and fuzzy matcher, the name matcher
agrees with the spec's contract: Exact mode returns 100 exactly on
case-folded containment, Fuzzy mode returns the maximum of the present
values among the subsequence fuzzy score, 100 for containment and 150
for a prefix match, and returns no match when none are present. -/
theorem get_best_match_score_spec (filename pattern : List Char)
    (matcher : List Char → List Char → Option Int) (match_mode : MatchMode) :
    get_best_match_score filename pattern matcher match_mode =
      nameScoreSpec filename pattern matcher match_mode := by
  cases match_mode with
  | Exact => rfl
  | Fuzzy =>
    simp only [get_best_match_score, nameScoreSpec]
    exact flattenMax_three _ _ _

/-! ## C3 — fuzzy score ordering -/

theorem skimFuzzyMatch_bounds (text pattern : List Char) (v : Int)
    (h : skimFuzzyMatch text pattern = some v) : 0 ≤ v ∧ v ≤ 100 := by
  unfold skimFuzzyMatch at h
  split at h
  · split at h <;> (injection h with h1; omega)
  · exact absurd h (by simp)

theorem skimFuzzyMatch_of_isSubseq (text pattern : List Char)
    (h : isSubseq (lowerStr pattern) (lowerStr text) = true) :
    ∃ v, skimFuzzyMatch text pattern = some v ∧ 0 ≤ v ∧ v ≤ 100 := by
  have hs : skimFuzzyMatch text pattern =
      some (if pattern.isEmpty then 0
            else max 1 (min 100 ((100 * (pattern.length : Int)) / text.length))) := by
    unfold skimFuzzyMatch
    rw [h]
    simp
  refine ⟨_, hs, ?_⟩
  exact skimFuzzyMatch_bounds _ _ _ hs

/-- C3: in Fuzzy mode, a filename with the pattern as a case-insensitive
prefix scores at least as high as one containing it only as a non-prefix
substring, which scores at least as high as one matching only as a
sparse subsequence. -/
theorem fuzzy_score_ordering (P A B C : List Char)
    (hA : (lowerStr P).isPrefixOf (lowerStr A) = true)
    (hB1 : containsSub (lowerStr P) (lowerStr B) = true)
    (hB2 : (lowerStr P).isPrefixOf (lowerStr B) = false)
    (hC1 : isSubseq (lowerStr P) (lowerStr C) = true)
    (hC2 : containsSub (lowerStr P) (lowerStr C) = false) :
    ∃ sa sb sc : Int,
      get_best_match_score A P skimFuzzyMatch .Fuzzy = some sa ∧
      get_best_match_score B P skimFuzzyMatch .Fuzzy = some sb ∧
      get_best_match_score C P skimFuzzyMatch .Fuzzy = some sc ∧
      sb ≤ sa ∧ sc ≤ sb := by
  have hAc : containsSub (lowerStr P) (lowerStr A) = true := by
    rw [containsSub_correct]
    exact (List.isPrefixOf_iff_prefix.mp hA).isInfix
  have hAs : isSubseq (lowerStr P) (lowerStr A) = true := by
    rw [isSubseq_iff_sublist]
    exact (List.isPrefixOf_iff_prefix.mp hA).sublist
  have hBs : isSubseq (lowerStr P) (lowerStr B) = true := by
    rw [isSubseq_iff_sublist]
    exact (containsSub_correct _ _ |>.mp hB1).sublist
  have hCp : (lowerStr P).isPrefixOf (lowerStr C) = false := by
    cases hp : (lowerStr P).isPrefixOf (lowerStr C) with
    | false => rfl
    | true =>
      exfalso
      have hinf : containsSub (lowerStr P) (lowerStr C) = true := by
        rw [containsSub_correct]
        exact (List.isPrefixOf_iff_prefix.mp hp).isInfix
      rw [hC2] at hinf
      exact Bool.false_ne_true hinf
  obtain ⟨va, hva, _, hva2⟩ := skimFuzzyMatch_of_isSubseq A P hAs
  obtain ⟨vb, hvb, _, hvb2⟩ := skimFuzzyMatch_of_isSubseq B P hBs
  obtain ⟨vc, hvc, _, hvc2⟩ := skimFuzzyMatch_of_isSubseq C P hC1
  refine ⟨max va (max 100 150), max vb 100, vc, ?_, ?_, ?_, ?_, ?_⟩
  · simp only [get_best_match_score, hva, hAc, hA, if_true]
    simp [flattenMax, listMaxInt, List.filterMap]
  · simp only [get_best_match_score, hvb, hB1, hB2, if_true]
    simp [flattenMax, listMaxInt, List.filterMap]
  · simp only [get_best_match_score, hvc, hC2, hCp, if_true]
    simp [flattenMax, listMaxInt, List.filterMap]
  · have : (max va (max 100 150) : Int) = max va 150 := by omega
    omega
  · omega

/-- Witness for C3 at pattern `main`: `main.rs` (prefix) scores at least
`x_main` (substring only), which scores at least `mxain` (subsequence
only). -/
theorem fuzzy_score_ordering_witness :
    ∃ sa sb sc : Int,
      get_best_match_score "main.rs".data "main".data skimFuzzyMatch .Fuzzy = some sa ∧
      get_best_match_score "x_main".data "main".data skimFuzzyMatch .Fuzzy = some sb ∧
      get_best_match_score "mxain".data "main".data skimFuzzyMatch .Fuzzy = some sc ∧
      sb ≤ sa ∧ sc ≤ sb :=
  fuzzy_score_ordering "main".data "main.rs".data "x_main".data "mxain".data
    (by decide) (by decide) (by decide) (by decide) (by decide)

/-! ## Characterization of the occurrence scan (search.rs:46-56) -/

theorem firstOcc_none (p : List Char) :
    ∀ (m : List Char), firstOcc p m = none → ∀ i, p.isPrefixOf (m.drop i) = false := by
  intro m
  induction m with
  | nil =>
    intro h i
    simp only [firstOcc] at h
    split at h
    · exact absurd h (by simp)
    · rename_i hne
      cases p with
      | nil => simp [List.isEmpty] at hne
      | cons a as =>
        rw [List.drop_nil]
        simp [List.isPrefixOf]
  | cons c cs ih =>
    intro h i
    simp only [firstOcc] at h
    split at h
    · exact absurd h (by simp)
    · rename_i hpre
      have h2 : firstOcc p cs = none := by
        cases hfo : firstOcc p cs with
        | none => rfl
        | some j => rw [hfo] at h; simp at h
      cases i with
      | zero =>
        rw [List.drop_zero]
        exact Bool.not_eq_true _ ▸ (by simpa using hpre)
      | succ i' =>
        rw [List.drop_succ_cons]
        exact ih h2 i'

theorem firstOcc_some (p : List Char) :
    ∀ (m : List Char) (j : Nat), firstOcc p m = some j →
      p.isPrefixOf (m.drop j) = true ∧ ∀ i, i < j → p.isPrefixOf (m.drop i) = false := by
  intro m
  induction m with
  | nil =>
    intro j h
    simp only [firstOcc] at h
    split at h
    · rename_i he
      injection h with h1
      subst h1
      have hp : p = [] := by simpa [List.isEmpty_iff] using he
      subst hp
      exact ⟨rfl, fun i hi => absurd hi (by omega)⟩
    · exact absurd h (by simp)
  | cons c cs ih =>
    intro j h
    simp only [firstOcc] at h
    split at h
    · rename_i hpre
      injection h with h1
      subst h1
      exact ⟨by simpa using hpre, fun i hi => absurd hi (by omega)⟩
    · rename_i hpre
      cases hfo : firstOcc p cs with
      | none => rw [hfo] at h; simp at h
      | some j' =>
        rw [hfo] at h
        simp only [Option.map_some'] at h
        injection h with h1
        subst h1
        obtain ⟨h1, h2⟩ := ih j' hfo
        refine ⟨by simpa [List.drop_succ_cons] using h1, ?_⟩
        intro i hi
        cases i with
        | zero =>
          rw [List.drop_zero]
          exact Bool.not_eq_true _ ▸ (by simpa using hpre)
        | succ i' =>
          rw [List.drop_succ_cons]
          exact h2 i' (by omega)

theorem firstOcc_lt_length (p m : List Char) (j : Nat) (hp : p ≠ [])
    (h : firstOcc p m = some j) : j < m.length := by
  obtain ⟨h1, -⟩ := firstOcc_some p m j h
  by_contra hlen
  push_neg at hlen
  rw [List.drop_eq_nil_of_le hlen] at h1
  cases p with
  | nil => exact hp rfl
  | cons a as => simp [List.isPrefixOf] at h1

theorem filter_range_threshold (n a b : Nat) (q : Nat → Bool) (hab : a ≤ b)
    (hgap : ∀ i, a ≤ i → i < b → q i = false) :
    (List.range n).filter (fun i => decide (a ≤ i) && q i) =
      (List.range n).filter (fun i => decide (b ≤ i) && q i) := by
  apply List.filter_congr
  intro x _
  by_cases h1 : b ≤ x
  · have h2 : a ≤ x := le_trans hab h1
    simp [h1, h2]
  · by_cases h2 : a ≤ x
    · have hqf : q x = false := hgap x h2 (by omega)
      simp [h1, h2, hqf]
    · simp [h1, h2]

theorem filter_range_head (n a : Nat) (q : Nat → Bool) (han : a < n) (hqa : q a = true) :
    (List.range n).filter (fun i => decide (a ≤ i) && q i) =
      a :: (List.range n).filter (fun i => decide (a + 1 ≤ i) && q i) := by
  induction n with
  | zero => omega
  | succ n ih =>
    rw [List.range_succ, List.filter_append, List.filter_append]
    by_cases h : a < n
    · rw [ih h]
      have hsame : (List.filter (fun i => decide (a ≤ i) && q i) [n]) =
          (List.filter (fun i => decide (a + 1 ≤ i) && q i) [n]) := by
        have h1 : decide (a ≤ n) = true := decide_eq_true (by omega)
        have h2 : decide (a + 1 ≤ n) = true := decide_eq_true (by omega)
        simp only [List.filter, h1, h2]
      rw [hsame, List.cons_append]
    · have han' : a = n := by omega
      subst han'
      have hempty1 : (List.range a).filter (fun i => decide (a ≤ i) && q i) = [] := by
        rw [List.filter_eq_nil_iff]
        intro x hx
        rw [List.mem_range] at hx
        simp only [Bool.and_eq_true, decide_eq_true_eq, not_and]
        omega
      have hempty2 : (List.range a).filter (fun i => decide (a + 1 ≤ i) && q i) = [] := by
        rw [List.filter_eq_nil_iff]
        intro x hx
        rw [List.mem_range] at hx
        simp only [Bool.and_eq_true, decide_eq_true_eq, not_and]
        omega
      rw [hempty1, hempty2]
      have h1 : decide (a ≤ a) = true := decide_eq_true (by omega)
      have h2 : decide (a + 1 ≤ a) = false := decide_eq_false (by omega)
      simp [List.filter, h1, h2, hqa]

theorem occLoop_eq (p l : List Char) (hp : p ≠ []) :
    ∀ (fuel start : Nat), l.length + 1 ≤ fuel + start →
      occLoop p l start fuel =
        (List.range l.length).filter
          (fun i => decide (start ≤ i) && p.isPrefixOf (l.drop i)) := by
  intro fuel
  induction fuel with
  | zero =>
    intro start hf
    simp only [occLoop]
    symm
    rw [List.filter_eq_nil_iff]
    intro x hx
    rw [List.mem_range] at hx
    simp only [Bool.and_eq_true, decide_eq_true_eq, not_and]
    omega
  | succ fuel ih =>
    intro start hf
    simp only [occLoop]
    cases hfo : firstOcc p (l.drop start) with
    | none =>
      symm
      rw [List.filter_eq_nil_iff]
      intro x hx hcontra
      rw [List.mem_range] at hx
      simp only [Bool.and_eq_true, decide_eq_true_eq] at hcontra
      obtain ⟨hsx, hpref⟩ := hcontra
      have hnone := firstOcc_none p (l.drop start) hfo (x - start)
      rw [List.drop_drop] at hnone
      have hxx : start + (x - start) = x := by omega
      rw [hxx] at hnone
      rw [hnone] at hpref
      exact Bool.false_ne_true hpref
    | some j =>
      obtain ⟨hj1, hj2⟩ := firstOcc_some p (l.drop start) j hfo
      rw [List.drop_drop] at hj1
      have hjlt : j < (l.drop start).length := firstOcc_lt_length p (l.drop start) j hp hfo
      rw [List.length_drop] at hjlt
      have hstep1 :
          (List.range l.length).filter
            (fun i => decide (start ≤ i) && p.isPrefixOf (l.drop i)) =
          (List.range l.length).filter
            (fun i => decide (start + j ≤ i) && p.isPrefixOf (l.drop i)) := by
        apply filter_range_threshold _ _ _ _ (by omega)
        intro i hi1 hi2
        have hmin := hj2 (i - start) (by omega)
        rw [List.drop_drop] at hmin
        have hxx : start + (i - start) = i := by omega
        rw [hxx] at hmin
        exact hmin
      have hstep2 := filter_range_head l.length (start + j)
        (fun i => p.isPrefixOf (l.drop i)) (by omega) hj1
      simp only [] at hstep2
      show (start + j) :: occLoop p l (start + j + 1) fuel = _
      rw [ih (start + j + 1) (by omega), hstep1, hstep2]

theorem findAllOccurrences_eq (p l : List Char) (hp : p ≠ []) :
    findAllOccurrences p l =
      (List.range l.length).filter (fun i => p.isPrefixOf (l.drop i)) := by
  unfold findAllOccurrences
  rw [occLoop_eq p l hp (l.length + 1) 0 (by omega)]
  apply List.filter_congr
  intro x _
  simp

/-! ## C6 — content matches are exactly the occurrences -/

/-- C6: on every hit line, the recorded `ContentMatch`es are exactly the
occurrences of the case-folded pattern in the case-folded line — the
advance-by-one scan finds every occurrence start, overlapping ones
included — in increasing position order, each record carrying the
1-based line number and offsets with end = start + pattern length. -/
theorem content_matches_exact (lines : List (List Char)) (pattern : List Char)
    (match_mode : MatchMode) (hp : pattern ≠ []) :
    search_file_content (some lines) pattern match_mode =
      some ((lines.enum).flatMap fun le =>
        if lineFound le.2 pattern match_mode then
          ((List.range (lowerStr le.2).length).filter
              (fun i => (lowerStr pattern).isPrefixOf ((lowerStr le.2).drop i))).map
            fun pos =>
              { line_number := le.1 + 1, line_content := le.2,
                match_start := pos, match_end := pos + pattern.length }
        else []) := by
  have hp' : lowerStr pattern ≠ [] := by
    intro hfalse
    exact hp (List.map_eq_nil_iff.mp hfalse)
  simp only [search_file_content]
  congr 1
  congr 1
  funext le
  rw [findAllOccurrences_eq (lowerStr pattern) (lowerStr le.2) hp']

/-- Witness for C6: pattern `aa` on the single line `aaa` records the
two overlapping occurrences at offsets 0 and 1. -/
theorem content_matches_exact_witness :
    "aa".data ≠ ([] : List Char) ∧
    search_file_content (some ["aaa".data]) "aa".data .Exact =
      some [{ line_number := 1, line_content := "aaa".data, match_start := 0, match_end := 2 },
            { line_number := 1, line_content := "aaa".data, match_start := 1, match_end := 3 }] :=
  ⟨by decide, by
    rw [content_matches_exact ["aaa".data] "aa".data .Exact (by decide)]
    decide⟩

/-! ## C4 — fuzzy line hits versus recorded occurrences -/

theorem skimFuzzyMatch_pos (text pattern : List Char) (v : Int) (hp : pattern ≠ [])
    (h : skimFuzzyMatch text pattern = some v) : 0 < v := by
  unfold skimFuzzyMatch at h
  split at h
  · have hne : pattern.isEmpty = false := by
      cases pattern with
      | nil => exact absurd rfl hp
      | cons a as => rfl
    rw [hne] at h
    simp only [Bool.false_eq_true, if_false] at h
    injection h with h1
    omega
  · exact absurd h (by simp)

theorem firstOcc_none_of_not_contains (p : List Char) :
    ∀ (l : List Char), containsSub p l = false → firstOcc p l = none := by
  intro l
  induction l with
  | nil =>
    intro h
    simp only [containsSub] at h
    simp [firstOcc, h]
  | cons c cs ih =>
    intro h
    simp only [containsSub, Bool.or_eq_false_iff] at h
    obtain ⟨h1, h2⟩ := h
    simp [firstOcc, h1, ih h2]

theorem findAllOccurrences_nil_of_not_contains (p l : List Char)
    (h : containsSub p l = false) : findAllOccurrences p l = [] := by
  simp [findAllOccurrences, occLoop, List.drop_zero, firstOcc_none_of_not_contains p l h]

/-- Counterexample for C4: the line `mxain` has a positive subsequence
fuzzy score for the pattern `main` and is accepted as a hit, yet the
scan records zero `ContentMatch`es for the file, and a Content-type
search over the content-searchable file `notes.md` holding that line
returns no results. -/
theorem content_fuzzy_hit_no_records :
    (∃ v : Int, skimFuzzyMatch "mxain".data "main".data = some v ∧ 0 < v) ∧
    lineFound "mxain".data "main".data .Fuzzy = true ∧
    search_file_content (some ["mxain".data]) "main".data .Fuzzy = some [] ∧
    search_files paramsMain none [entryNotes] = [] :=
  ⟨⟨80, by decide, by decide⟩, by decide, by decide, by decide⟩

/-- C4 as amended: in Fuzzy mode a line is accepted as a hit exactly
when it contains the pattern case-insensitively or has a positive
subsequence fuzzy score; however, `ContentMatch` records are produced
only for case-insensitive substring occurrences, so a file none of
whose lines contain the pattern yields zero content matches even when
fuzzy-only hits are present (and hence cannot appear in a Content-type
search). -/
theorem content_fuzzy_hits_record_only_substrings :
    (∀ (line pattern : List Char), pattern ≠ [] →
      (lineFound line pattern .Fuzzy = true ↔
        containsSub (lowerStr pattern) (lowerStr line) = true ∨
        ∃ v, skimFuzzyMatch line pattern = some v ∧ 0 < v)) ∧
    (∀ (pattern : List Char) (lines : List (List Char)),
      (∀ line ∈ lines, containsSub (lowerStr pattern) (lowerStr line) = false) →
      search_file_content (some lines) pattern .Fuzzy = some []) := by
  constructor
  · intro line pattern hp
    simp only [lineFound, Bool.or_eq_true]
    constructor
    · rintro (h | h)
      · exact Or.inl h
      · rcases Option.isSome_iff_exists.mp h with ⟨v, hv⟩
        exact Or.inr ⟨v, hv, skimFuzzyMatch_pos line pattern v hp hv⟩
    · rintro (h | ⟨v, hv, -⟩)
      · exact Or.inl h
      · exact Or.inr (Option.isSome_iff_exists.mpr ⟨v, hv⟩)
  · intro pattern lines hnc
    simp only [search_file_content, Option.some.injEq]
    rw [List.flatMap_eq_nil_iff]
    rintro ⟨i, line⟩ hmem
    obtain ⟨hlt, hline⟩ := List.mem_enum hmem
    have hlm : line ∈ lines := by
      rw [hline]
      exact List.getElem_mem hlt
    have hc := hnc line hlm
    split
    · rw [findAllOccurrences_nil_of_not_contains _ _ hc]
      rfl
    · rfl

/-- Witness for C4's amended claim at the line `mxain` and pattern
`main`: the line is a fuzzy-only hit, and the whole-file scan over it
records nothing. -/
theorem content_fuzzy_hits_record_only_substrings_witness :
    lineFound "mxain".data "main".data .Fuzzy = true ∧
    search_file_content (some ["mxain".data]) "main".data .Fuzzy = some [] :=
  ⟨(content_fuzzy_hits_record_only_substrings.1 "mxain".data "main".data
      (by decide)).mpr (Or.inr ⟨80, by decide, by decide⟩),
   content_fuzzy_hits_record_only_substrings.2 "main".data ["mxain".data] (by decide)⟩

/-! ## C9 — content-scan failures are local -/

theorem contentMatchesOf_patch (P : Params) (e : Entry) :
    contentMatchesOf P (patchContent e) = contentMatchesOf P e := by
  obtain ⟨p, n, d, m, c⟩ := e
  cases c with
  | some ls => rfl
  | none =>
    simp only [patchContent]
    cases P.content_pattern with
    | none => rfl
    | some pattern =>
      simp only [contentMatchesOf]
      cases hs : (!d && P.config.is_content_searchable n) <;>
        simp [hs, search_file_content]

theorem processEntry_patch (P : Params) (st : SearchType) (e : Entry) :
    processEntry P st (patchContent e) = processEntry P st e := by
  have hcm := contentMatchesOf_patch P e
  obtain ⟨p, n, d, m, c⟩ := e
  cases c with
  | some ls => rfl
  | none =>
    simp only [patchContent] at hcm ⊢
    simp only [processEntry, util_get_file_metadata]
    rw [hcm]

theorem seqFilterEntry_patch (running ih : Bool) (cfg : Config) (e : Entry) :
    seqFilterEntry running ih cfg (patchContent e) = seqFilterEntry running ih cfg e := by
  obtain ⟨p, n, d, m, c⟩ := e
  cases c with
  | some ls => rfl
  | none => rfl

theorem seqLoop_patch (P : Params) (st : SearchType) (cancelAt : Option Nat) :
    ∀ (entries : List Entry) (k : Nat) (acc : List SearchResult),
      seqLoop P st cancelAt (entries.map patchContent) k acc =
        seqLoop P st cancelAt entries k acc := by
  intro entries
  induction entries with
  | nil => intro k acc; rfl
  | cons e rest ih =>
    intro k acc
    simp only [List.map_cons, seqLoop, seqFilterEntry_patch, processEntry_patch, ih]

/-- C9: a failure to open, read or decode a file yields zero content
matches for that file and never aborts the sequential search: the
scanner reports the failure without producing matches, the entry's
content matches are empty and its processing coincides with that of an
empty readable file, and the whole search result is unchanged when
every unreadable file is replaced by an empty one (in particular the
entry can still match by filename). -/
theorem content_scan_error_local :
    (∀ (pattern : List Char) (mode : MatchMode),
      search_file_content none pattern mode = none) ∧
    (∀ (P : Params) (st : SearchType) (e : Entry), e.content = none →
      contentMatchesOf P e = [] ∧
      processEntry P st e = processEntry P st { e with content := some [] }) ∧
    (∀ (P : Params) (cancelAt : Option Nat) (entries : List Entry),
      search_files P cancelAt (entries.map patchContent) =
        search_files P cancelAt entries) := by
  refine ⟨fun pattern mode => rfl, ?_, ?_⟩
  · intro P st e hc
    constructor
    · simp only [contentMatchesOf]
      cases P.content_pattern with
      | none => rfl
      | some pattern =>
        cases hs : (!e.is_dir && P.config.is_content_searchable e.name) <;>
          simp [hs, hc, search_file_content]
    · have hpc : patchContent e = { e with content := some [] } := by
        simp [patchContent, hc]
      rw [← hpc]
      exact (processEntry_patch P st e).symm
  · intro P cancelAt entries
    simp only [search_files]
    cases seqSearchType P.filename_pattern P.content_pattern with
    | none => rfl
    | some st => simp only [seqLoop_patch]

/-- Witness for C9: the unreadable file `a3` contributes no content
matches and is processed exactly like an empty file. -/
theorem content_scan_error_local_witness :
    contentMatchesOf paramsMain entryErrA = [] ∧
    processEntry paramsMain .Content entryErrA =
      processEntry paramsMain .Content { entryErrA with content := some [] } :=
  content_scan_error_local.2.1 paramsMain .Content entryErrA (by decide)

/-! ## C2 — aggregation table -/

/-- C2: for every per-entry outcome and search type, the aggregation of
both executors produces exactly the `(is_match, final_score)` pairs of
the spec's table: FileName matches iff a filename score is present and
scores it; Content matches iff the match list is nonempty, scoring 100
or 0; Hybrid matches if either did, scoring the filename score (0 when
absent) plus 50 when content matched. -/
theorem aggregate_matches_spec_table (filename_score : Option Int)
    (content_matches : List ContentMatch) (search_type : SearchType) :
    aggregate filename_score content_matches search_type =
      aggregateSpec filename_score content_matches search_type := by
  cases search_type <;> cases filename_score <;> cases content_matches <;>
    simp [aggregate, aggregateSpec]

/-! ## Executor structure lemmas -/

theorem mem_insertDesc (r x : SearchResult) (l : List SearchResult) :
    x ∈ insertDesc r l ↔ x = r ∨ x ∈ l := by
  induction l with
  | nil => simp [insertDesc]
  | cons y ys ih =>
    by_cases hlt : r.score < y.score
    · simp only [insertDesc, if_pos hlt, List.mem_cons, ih]
      try tauto
    · simp only [insertDesc, if_neg hlt, List.mem_cons]
      try tauto

theorem mem_sortDesc (x : SearchResult) (l : List SearchResult) :
    x ∈ sortDesc l ↔ x ∈ l := by
  induction l with
  | nil => simp [sortDesc]
  | cons y ys ih => simp [sortDesc, mem_insertDesc, ih]

theorem processEntry_path (P : Params) (st : SearchType) (e : Entry) (r : SearchResult)
    (h : r ∈ processEntry P st e) : r.path = e.path := by
  simp only [processEntry] at h
  split at h
  · exact absurd h (List.not_mem_nil r)
  split at h
  · exact absurd h (List.not_mem_nil r)
  split at h
  · exact absurd h (List.not_mem_nil r)
  split at h
  · rw [List.mem_singleton] at h
    subst h
    rfl
  · exact absurd h (List.not_mem_nil r)

theorem processEntryPar_path (P : Params) (st : SearchType) (e : Entry) (r : SearchResult)
    (h : processEntryPar P st e = some r) : r.path = e.path := by
  simp only [processEntryPar] at h
  split at h
  · exact absurd h (by simp)
  split at h
  · exact absurd h (by simp)
  split at h
  · exact absurd h (by simp)
  split at h
  · exact absurd h (by simp)
  · injection h with h1
    subst h1
    rfl

theorem seqFilterEntry_false_of_cancelled (include_hidden : Bool) (cfg : Config) (e : Entry) :
    seqFilterEntry false include_hidden cfg e = false := rfl

theorem seqLoop_mem (P : Params) (st : SearchType) (cancelAt : Option Nat) :
    ∀ (entries : List Entry) (k : Nat) (acc : List SearchResult) (r : SearchResult),
      r ∈ (seqLoop P st cancelAt entries k acc).1 →
      r ∈ acc ∨ ∃ e ∈ entries,
        seqFilterEntry true P.include_hidden P.config e = true ∧ r.path = e.path := by
  intro entries
  induction entries with
  | nil => intro k acc r h; exact Or.inl h
  | cons e rest ih =>
    intro k acc r h
    simp only [seqLoop] at h
    by_cases hf : seqFilterEntry (pollRun cancelAt k) P.include_hidden P.config e = true
    · rw [if_pos hf] at h
      by_cases hl : pollRun cancelAt (k + 1) = true
      · rw [if_pos hl] at h
        rcases ih (k + 2) (acc ++ processEntry P st e) r h with hin | ⟨e', he', hfe', hp'⟩
        · rcases List.mem_append.mp hin with h1 | h2
          · exact Or.inl h1
          · right
            refine ⟨e, List.mem_cons_self e rest, ?_, processEntry_path P st e r h2⟩
            cases hpk : pollRun cancelAt k with
            | true => rw [hpk] at hf; exact hf
            | false =>
              rw [hpk] at hf
              exact absurd hf (by simp [seqFilterEntry_false_of_cancelled])
        · exact Or.inr ⟨e', List.mem_cons_of_mem _ he', hfe', hp'⟩
      · rw [if_neg hl] at h
        exact Or.inl h
    · rw [if_neg hf] at h
      rcases ih (k + 1) acc r h with hin | ⟨e', he', hfe', hp'⟩
      · exact Or.inl hin
      · exact Or.inr ⟨e', List.mem_cons_of_mem _ he', hfe', hp'⟩

theorem search_files_mem (P : Params) (cancelAt : Option Nat) (entries : List Entry)
    (r : SearchResult) (h : r ∈ search_files P cancelAt entries) :
    ∃ e ∈ entries,
      seqFilterEntry true P.include_hidden P.config e = true ∧ r.path = e.path := by
  simp only [search_files] at h
  split at h
  · exact absurd h (List.not_mem_nil r)
  · rename_i st hst
    split at h
    · have h1 : r ∈ sortDesc (seqLoop P st cancelAt entries 0 []).1 :=
        List.take_subset _ _ h
      have h2 : r ∈ (seqLoop P st cancelAt entries 0 []).1 := (mem_sortDesc _ _).mp h1
      rcases seqLoop_mem P st cancelAt entries 0 [] r h2 with h3 | h3
      · exact absurd h3 (List.not_mem_nil r)
      · exact h3
    · rcases seqLoop_mem P st cancelAt entries 0 [] r h with h3 | h3
      · exact absurd h3 (List.not_mem_nil r)
      · exact h3

theorem seqFilterEntry_true_size (running include_hidden : Bool) (cfg : Config) (e : Entry)
    (h : seqFilterEntry running include_hidden cfg e = true) : sizeReject cfg e = false := by
  cases hs : sizeReject cfg e with
  | false => rfl
  | true =>
    exfalso
    simp [seqFilterEntry, hs] at h

/-! ## C1 — result count versus the requested limit -/

/-- Counterexample for C1: a sequential invocation during which the
cancellation flag is cleared just before the final load returns both
collected results, exceeding the requested limit of 1. -/
theorem seq_results_exceed_limit_on_cancel :
    paramsA.limit < (search_files paramsA (some 4) [entryA1, entryA2]).length := by
  decide

/-- C1 as amended: the parallel executor truncates to the limit whether
or not cancellation occurred; the sequential executor guarantees the
bound when no cancellation occurs (on cancellation it returns its raw
accumulator, which the counterexample shows can exceed the limit). -/
theorem results_length_le_limit :
    (∀ (P : Params) (entries : List Entry),
      (search_files P none entries).length ≤ P.limit) ∧
    (∀ (P : Params) (running_task : Entry → Bool) (running_final : Bool)
        (entries : List Entry),
      (search_files_parallel P running_task running_final entries).length ≤ P.limit) := by
  constructor
  · intro P entries
    simp only [search_files]
    cases seqSearchType P.filename_pattern P.content_pattern with
    | none => simp
    | some st =>
      simp only [pollRun, if_true]
      rw [List.length_take]
      exact min_le_left _ _
  · intro P running_task running_final entries
    simp only [search_files_parallel]
    split
    · rw [List.length_take]
      exact min_le_left _ _
    · rw [List.length_take]
      exact le_trans (min_le_left _ _) (min_le_left _ _)

/-! ## C7 — cancellation and the two traversals -/

/-- Counterexample for C7: with the cancellation flag cleared at every
observation point, the parallel executor's phase-1 enumeration still
admits the entry (its filter closure never loads the flag), whereas
the sequential filter rejects it. -/
theorem parallel_enumeration_ignores_cancellation :
    parPhase1 paramsA (fun _ => false) [entryA1] = [entryA1] ∧
    seqFilterEntry false paramsA.include_hidden paramsA.config entryA1 = false :=
  ⟨by decide, rfl⟩

/-- C7 as amended: once the flag is cleared, the sequential executor's
traversal filter excludes every entry, so its walk admits no further
entry and only advances the poll counter; the parallel executor's
phase-1 enumeration never consults the flag and is the same function
of the entries under any cancellation behaviour. -/
theorem cancellation_halts_sequential_only :
    (∀ (include_hidden : Bool) (cfg : Config) (e : Entry),
      seqFilterEntry false include_hidden cfg e = false) ∧
    (∀ (P : Params) (st : SearchType) (c : Nat) (entries : List Entry) (k : Nat)
        (acc : List SearchResult), c ≤ k →
      seqLoop P st (some c) entries k acc = (acc, k + entries.length)) ∧
    (∀ (P : Params) (r1 r2 : Entry → Bool) (entries : List Entry),
      parPhase1 P r1 entries = parPhase1 P r2 entries) := by
  refine ⟨fun ih cfg e => rfl, ?_, fun P r1 r2 entries => rfl⟩
  intro P st c entries
  induction entries with
  | nil =>
    intro k acc h
    simp [seqLoop]
  | cons e rest ih =>
    intro k acc h
    have hpoll : pollRun (some c) k = false := by
      simp only [pollRun, decide_eq_false_iff_not]
      omega
    simp only [seqLoop, hpoll, seqFilterEntry_false_of_cancelled, Bool.false_eq_true,
      if_false]
    rw [ih (k + 1) acc (by omega)]
    simp only [List.length_cons]
    exact congrArg _ (by omega)

/-- Witness for C7's amended claim: with cancellation signaled from the
start, the sequential loop over one entry admits nothing and performs
exactly one flag load. -/
theorem cancellation_halts_sequential_only_witness :
    seqLoop paramsA .FileName (some 0) [entryA1] 0 [] = ([], 1) :=
  cancellation_halts_sequential_only.2.1 paramsA .FileName 0 [entryA1] 0 [] (by decide)

/-! ## C8 — oversize files are invisible -/

/-- C8: a regular file whose metadata reports a size above the ceiling
is rejected by the sequential traversal filter and by the parallel
oversize test, before any matching; consequently every result of
either executor stems from an entry of the input whose metadata does
not report an oversized regular file. -/
theorem oversize_files_excluded :
    (∀ (running include_hidden : Bool) (cfg : Config) (e : Entry) (m : Meta),
      e.meta = some m → m.is_file = true →
      cfg.max_file_size_mb * 1024 * 1024 < m.len →
      seqFilterEntry running include_hidden cfg e = false ∧ sizeReject cfg e = true) ∧
    (∀ (P : Params) (cancelAt : Option Nat) (entries : List Entry) (r : SearchResult),
      r ∈ search_files P cancelAt entries →
      ∃ e ∈ entries, r.path = e.path ∧ sizeReject P.config e = false) ∧
    (∀ (P : Params) (running_task : Entry → Bool) (running_final : Bool)
        (entries : List Entry) (r : SearchResult),
      r ∈ search_files_parallel P running_task running_final entries →
      ∃ e ∈ entries, r.path = e.path ∧ sizeReject P.config e = false) := by
  refine ⟨?_, ?_, ?_⟩
  · intro running include_hidden cfg e m hm hfile hlen
    have hsz : sizeReject cfg e = true := by
      simp only [sizeReject, hm, hfile, Bool.true_and, decide_eq_true_eq]
      exact hlen
    refine ⟨?_, hsz⟩
    cases running with
    | false => rfl
    | true => simp [seqFilterEntry, hsz]
  · intro P cancelAt entries r h
    obtain ⟨e, he, hfe, hp⟩ := search_files_mem P cancelAt entries r h
    exact ⟨e, he, hp, seqFilterEntry_true_size true P.include_hidden P.config e hfe⟩
  · intro P running_task running_final entries r h
    simp only [search_files_parallel] at h
    have hmem : r ∈ sortDesc (List.filterMap
        (fun e => if !running_task e then none
                  else processEntryPar P (parSearchType P.filename_pattern P.content_pattern) e)
        (parPhase1 P running_task entries)) := by
      split at h
      · exact List.take_subset _ _ h
      · exact List.take_subset _ _ h
    rw [mem_sortDesc] at hmem
    rw [List.mem_filterMap] at hmem
    obtain ⟨e, he, hsome⟩ := hmem
    have hpath : r.path = e.path := by
      cases hrt : running_task e with
      | false => rw [hrt] at hsome; exact absurd hsome (by simp)
      | true =>
        rw [hrt] at hsome
        simp only [Bool.not_true, Bool.false_eq_true, if_false] at hsome
        exact processEntryPar_path P _ e r hsome
    have he2 : e ∈ (entries.filter (parFilterEntry P.include_hidden P.config)).filter
        (fun e => !sizeReject P.config e) := List.take_subset _ _ he
    rw [List.mem_filter] at he2
    obtain ⟨he3, hsz⟩ := he2
    rw [List.mem_filter] at he3
    refine ⟨e, he3.1, hpath, ?_⟩
    simpa using hsz

/-- Witness for C8: the single result of a small sequential search
stems from an entry of the input that is not an oversized file. -/
theorem oversize_files_excluded_witness :
    ∃ e ∈ [entryA1],
      ({ path := "/r/a1".data, score := 150, is_dir := false, size := none,
         modified := none, content_matches := [], search_type := .FileName }
          : SearchResult).path = e.path ∧
      sizeReject paramsA.config e = false :=
  oversize_files_excluded.2.1 paramsA none [entryA1]
    { path := "/r/a1".data, score := 150, is_dir := false, size := none,
      modified := none, content_matches := [], search_type := .FileName }
    (by decide)

end FastFile
